import Mathlib

/-!
Verification of the IonQ-Demo repository specification.

The repository's demo scripts delegate topology-aware circuit compilation to
an external compiler; the specification (spec.md, sections 3-4) gives a
from-scratch design for that compiler.  The compiler itself is therefore
modelled here from the spec's words (definitions marked as such), while the
MaxCut, Bernstein-Vazirani, ZX-compression and unit-commitment helpers are
shallow embeddings of the repository's own Python source.
-/

namespace IonQ

/-- Modelled from the spec (section 3, Gate): a tagged operation with a name,
an ordered list of qubit operands and an ordered list of real parameters
(represented as rationals). -/
structure Gate where
  name : String
  qubits : List Nat
  params : List Rat
deriving DecidableEq, Repr

/-- Modelled from the spec (section 3, ConnectivityGraph): an undirected graph
over physical qubit indices 0..m-1 given by an edge list. -/
structure ConnectivityGraph where
  m : Nat
  edges : List (Nat × Nat)
deriving DecidableEq, Repr

/-- Modelled from the spec: whether the undirected edge between physical
qubits a and b is present in the connectivity graph. -/
def hasEdge (G : ConnectivityGraph) (a b : Nat) : Bool :=
  G.edges.any (fun e => (e.1 == a && e.2 == b) || (e.1 == b && e.2 == a))

/-- Modelled from the spec: the physical qubits adjacent to v. -/
def neighbors (G : ConnectivityGraph) (v : Nat) : List Nat :=
  (List.range G.m).filter (fun u => hasEdge G v u)

/-- Fuel-bounded breadth-first search computing the graph distance from the
current frontier to dst (supports the spec's shortest-path routing). -/
def bfsDistAux (G : ConnectivityGraph) (dst : Nat) :
    Nat → List Nat → List Nat → Nat → Option Nat
  | 0, _, _, _ => none
  | fuel + 1, frontier, visited, d =>
    if frontier.contains dst then some d
    else
      let next := ((frontier.map (neighbors G)).flatten.filter
        (fun u => !(visited.contains u))).dedup
      if next.isEmpty then none
      else bfsDistAux G dst fuel next (visited ++ next) (d + 1)

/-- Modelled from the spec (section 4.2): graph distance between two physical
qubits, none when they lie in different connected components. -/
def bfsDist (G : ConnectivityGraph) (src dst : Nat) : Option Nat :=
  bfsDistAux G dst (G.m + 1) [src] [src] 0

/-- Modelled from the spec (section 3, Layout): the logical-to-physical
assignment, logical qubit q residing at position q of the list. -/
abbrev Layout := List Nat

/-- Physical qubit currently holding logical qubit q. -/
def physOf (L : Layout) (q : Nat) : Nat := L.getD q q

/-- Update the layout after a routing swap of physical qubits p1 and p2. -/
def swapPhys (L : Layout) (p1 p2 : Nat) : Layout :=
  L.map (fun p => if p == p1 then p2 else if p == p2 then p1 else p)

/-- Modelled from the spec (section 4.2, tie-break rule): the remaining
future-use count of the logical qubit currently placed at physical qubit u. -/
def futureUse (rest : List Gate) (L : Layout) (u : Nat) : Nat :=
  match (List.range L.length).find? (fun i => physOf L i == u) with
  | some i => rest.countP (fun g => g.qubits.contains i)
  | none => 0

/-- Modelled from the spec (section 4.2): choose the next routing step from pa
towards pb - a neighbor of pa of minimal graph distance to pb, ties broken in
favour of the physical qubit with the highest remaining future-use count. -/
def chooseStep (G : ConnectivityGraph) (rest : List Gate) (L : Layout)
    (pa pb : Nat) : Option Nat :=
  match (neighbors G pa).filterMap
      (fun u => (bfsDist G u pb).map (fun d => (u, d))) with
  | [] => none
  | c :: cs =>
    some ((cs.foldl (fun best p =>
      if p.2 < best.2 ∨
          (p.2 = best.2 ∧ futureUse rest L best.1 < futureUse rest L p.1)
      then p else best) c).1)

/-- Modelled from the spec (section 7): the typed error taxonomy. -/
inductive CompileError where
  | InsufficientPhysicalQubits
  | UnroutablePair
  | NoDecompositionRule
  | CompilationCancelled
deriving DecidableEq, Repr

/-- Modelled from the spec (section 4.2): insert a minimal chain of routing
swaps bringing the physical locations of logical qubits a and b adjacent,
returning the inserted swap gates and the updated layout. -/
def bringAdjacent (G : ConnectivityGraph) (rest : List Gate) (a b : Nat) :
    Nat → Layout → Except CompileError (List Gate × Layout)
  | 0, L =>
    if hasEdge G (physOf L a) (physOf L b) then .ok ([], L)
    else .error .UnroutablePair
  | fuel + 1, L =>
    if hasEdge G (physOf L a) (physOf L b) then .ok ([], L)
    else
      match chooseStep G rest L (physOf L a) (physOf L b) with
      | none => .error .UnroutablePair
      | some u =>
        match bringAdjacent G rest a b fuel (swapPhys L (physOf L a) u) with
        | .error e => .error e
        | .ok (sw, L2) => .ok (Gate.mk "swap" [physOf L a, u] [] :: sw, L2)

/-- Modelled from the spec (section 4.2, Router): walk the circuit gate by
gate, routing every two-qubit gate onto a connectivity edge; returns the
routed gates, the number of inserted routing operations and the final
layout. -/
def routeCircuit (G : ConnectivityGraph) :
    List Gate → Layout → Except CompileError (List Gate × Nat × Layout)
  | [], L => .ok ([], 0, L)
  | g :: rest, L =>
    match g.qubits with
    | [a, b] =>
      match bringAdjacent G rest a b (G.m + 1) L with
      | .error e => .error e
      | .ok (sw, L2) =>
        match routeCircuit G rest L2 with
        | .error e => .error e
        | .ok (out, k, L3) =>
          .ok (sw ++ Gate.mk g.name [physOf L2 a, physOf L2 b] g.params :: out,
            sw.length + k, L3)
    | qs =>
      match routeCircuit G rest L with
      | .error e => .error e
      | .ok (out, k, L3) =>
        .ok (Gate.mk g.name (qs.map (physOf L)) g.params :: out, k, L3)

/-- Modelled from the spec (section 4.3): a decomposition template entry.  A
one-qubit template acts on the first or second operand of the source gate, a
two-qubit template acts on the source gate's operand pair (possibly flipped);
parameters are carried over through a fixed linear transform (rescaling, with
negation as a negative scale). -/
inductive TemplateOp where
  | oneQ (name : String) (second : Bool) (scale : Rat)
  | twoQ (name : String) (flip : Bool) (scale : Rat)
deriving DecidableEq, Repr

/-- Modelled from the spec (section 4.3): the static decomposition lookup
table keyed by source gate name. -/
abbrev RuleTable := List (String × List TemplateOp)

/-- Modelled from the spec (section 3, NativeBasis): the set of gate names the
target hardware executes directly. -/
abbrev NativeBasis := List String

/-- Instantiate a decomposition template on a source gate. -/
def instTemplate (g : Gate) : TemplateOp → Gate
  | .oneQ nm second scale =>
    Gate.mk nm [g.qubits.getD (if second then 1 else 0) 0]
      (g.params.map (fun p => scale * p))
  | .twoQ nm flip scale =>
    Gate.mk nm (if flip then g.qubits.reverse else g.qubits)
      (g.params.map (fun p => scale * p))

/-- Modelled from the spec (section 4.3): rewrite one gate - native gates pass
through, otherwise the lookup table supplies a decomposition, otherwise the
stage fails with NoDecompositionRule. -/
def rewriteGate (basis : NativeBasis) (rules : RuleTable) (g : Gate) :
    Except CompileError (List Gate) :=
  if basis.contains g.name then .ok [g]
  else
    match rules.lookup g.name with
    | some ts => .ok (ts.map (instTemplate g))
    | none => .error .NoDecompositionRule

/-- Modelled from the spec (section 4.3, Basis Rewriter): walk the routed
circuit and rewrite every gate into the native basis. -/
def rewriteCircuit (basis : NativeBasis) (rules : RuleTable) :
    List Gate → Except CompileError (List Gate)
  | [] => .ok []
  | g :: gs =>
    match rewriteGate basis rules g with
    | .error e => .error e
    | .ok ts =>
      match rewriteCircuit basis rules gs with
      | .error e => .error e
      | .ok rest => .ok (ts ++ rest)

/-- Modelled from the spec (section 4.4): depth accounting - per physical
qubit the depth-level of the last gate touching it is tracked (as an
association list, most recent entry first), each new gate gets depth-level one
plus the maximum over its qubits (zero when untouched), and the overall depth
is the maximum depth-level across all gates. -/
def depthAux : List Gate → List (Nat × Nat) → Nat → Nat
  | [], _, d => d
  | g :: gs, levels, d =>
    let lvl := 1 + g.qubits.foldl (fun acc q => max acc ((levels.lookup q).getD 0)) 0
    depthAux gs (g.qubits.foldl (fun ls q => (q, lvl) :: ls) levels) (max d lvl)

/-- Modelled from the spec (section 4.4): circuit depth. -/
def circuitDepth (c : List Gate) : Nat := depthAux c [] 0

/-- Modelled from the spec (section 4.4): per-gate-name counts. -/
def countOps (c : List Gate) : List (String × Nat) :=
  (c.map (fun g => g.name)).dedup.map
    (fun nm => (nm, c.countP (fun g => g.name == nm)))

/-- Modelled from the spec (section 4.4): the metrics computed by the Depth &
Metric Accountant, a function of the physical circuit alone. -/
structure Metrics where
  depth : Nat
  counts : List (String × Nat)
  totalGates : Nat
deriving DecidableEq, Repr

/-- Modelled from the spec (section 4.4, Depth & Metric Accountant). -/
def analyzeMetrics (c : List Gate) : Metrics :=
  Metrics.mk (circuitDepth c) (countOps c) c.length

/-- Modelled from the spec (section 3, LogicalCircuit): an ordered gate
sequence over logical qubits 0..n-1. -/
structure LogicalCircuit where
  n : Nat
  gates : List Gate
deriving DecidableEq, Repr

/-- Modelled from the spec (section 3, LogicalCircuit invariant): every gate
has one or two operands, all in range, and multi-qubit gates reference
distinct qubits. -/
def ValidCircuit (C : LogicalCircuit) : Prop :=
  ∀ g ∈ C.gates,
    (g.qubits.length = 1 ∨ g.qubits.length = 2) ∧
    (∀ q ∈ g.qubits, q < C.n) ∧ g.qubits.Nodup

instance (C : LogicalCircuit) : Decidable (ValidCircuit C) := by
  unfold ValidCircuit; infer_instance

/-- Every gate of the circuit already carries a native gate name. -/
def AllNative (C : LogicalCircuit) (basis : NativeBasis) : Prop :=
  ∀ g ∈ C.gates, g.name ∈ basis

instance (C : LogicalCircuit) (basis : NativeBasis) :
    Decidable (AllNative C basis) := by
  unfold AllNative; infer_instance

/-- All-to-all connectivity: every pair of distinct physical qubits in range
is joined by an edge. -/
def fullyConnected (G : ConnectivityGraph) : Bool :=
  (List.range G.m).all (fun a => (List.range G.m).all
    (fun b => a == b || hasEdge G a b))

/-- Modelled from the spec (section 4.5): the configuration knobs.  The model
realises effort level 0 with deterministic tie-breaking, so neither knob
influences the result (the seed only matters for randomized tie-breaking at
higher effort levels, which the model does not randomize). -/
structure Config where
  optimizationEffort : Nat
  seed : Option Nat
deriving DecidableEq, Repr

/-- Modelled from the spec (section 4.1, Initial Layout Selector): the
starting assignment of logical to physical qubits, failing with
InsufficientPhysicalQubits when n exceeds m; the model uses the identity
placement, one of the placements the spec's lifecycle admits. -/
def selectLayout (n : Nat) (G : ConnectivityGraph) : Except CompileError Layout :=
  if n ≤ G.m then .ok (List.range n) else .error .InsufficientPhysicalQubits

/-- Modelled from the spec (sections 2 and 4.5): the compiler's result - the
physical circuit annotated with the inserted-routing-operation count and the
accountant's metrics. -/
structure CompileResult where
  circuit : List Gate
  swapCount : Nat
  depth : Nat
  counts : List (String × Nat)
  totalGates : Nat
deriving DecidableEq, Repr

/-- Modelled from the spec (section 4.5, Compiler Orchestrator): sequence
layout selection, routing and basis rewriting, then annotate with metrics; a
failing stage fails the whole call. -/
def compile (C : LogicalCircuit) (G : ConnectivityGraph) (basis : NativeBasis)
    (rules : RuleTable) (cfg : Config) : Except CompileError CompileResult :=
  match selectLayout C.n G with
  | .error e => .error e
  | .ok L0 =>
    match routeCircuit G C.gates L0 with
    | .error e => .error e
    | .ok (routed, swaps, _) =>
      match rewriteCircuit basis rules routed with
      | .error e => .error e
      | .ok phys =>
        .ok (CompileResult.mk phys swaps (circuitDepth phys) (countOps phys)
          phys.length)

/-- Embedding of src/05-Compilation-ZXCalculus/zx_compression_demo.py,
analyze_circuit_gates: the per-gate-name operation counts of a circuit. -/
def analyze_circuit_gates (circuit : List Gate) : List (String × Nat) :=
  countOps circuit

/-- Embedding of src/08-ErrorCorrection-Steane/steane_code_demo.py,
analyze_circuit_structure: total gate count, cx count, hadamard count and
depth of a circuit. -/
def analyze_circuit_structure (circuit : List Gate) : Nat × Nat × Nat × Nat :=
  (circuit.length,
   circuit.countP (fun g => g.name == "cx"),
   circuit.countP (fun g => g.name == "h"),
   circuitDepth circuit)

/-- Embedding of src/05-Compilation-ZXCalculus/zx_compression_demo.py,
compress_with_zx: the external PyZX pipeline (convert, full_reduce, extract)
is abstracted as zxResult, with none standing for the try-block raising an
exception.  When PyZX is missing the input circuit is returned; when the
pipeline raises, the except-clause prints a message and returns the original
circuit. -/
def compress_with_zx (HAS_PYZX : Bool) (circuit : List Gate)
    (zxResult : Option (List Gate)) : List Gate :=
  if !HAS_PYZX then circuit
  else
    match zxResult with
    | some optimized => optimized
    | none => circuit

/-- Embedding of src/06-Optimization-QAOA/qaoa_maxcut_demo.py: a networkx
graph as used there - node count plus edge list. -/
structure NXGraph where
  n : Nat
  edges : List (Nat × Nat)
deriving DecidableEq, Repr

/-- Embedding of src/06-Optimization-QAOA/qaoa_maxcut_demo.py,
evaluate_maxcut_for_bitstring: count the edges whose endpoints carry
different bits of the bitstring. -/
def evaluate_maxcut_for_bitstring (bitstring : Nat) (graph : NXGraph) : Nat :=
  graph.edges.foldl
    (fun cut_value e =>
      if (bitstring >>> e.1) &&& 1 ≠ (bitstring >>> e.2) &&& 1
      then cut_value + 1 else cut_value) 0

/-- Embedding of src/06-Optimization-QAOA/qaoa_maxcut_demo.py,
find_optimal_maxcut: brute-force scan of all 2^n bitstrings keeping the
first strict improvement. -/
def find_optimal_maxcut (graph : NXGraph) : Nat × Nat :=
  (List.range (2 ^ graph.n)).foldl
    (fun acc bitstring =>
      let cut_value := evaluate_maxcut_for_bitstring bitstring graph
      if cut_value > acc.1 then (cut_value, bitstring) else acc)
    (0, 0)

/-- The brute-force scan of find_optimal_maxcut truncated to the first N
bitstrings (find_optimal_maxcut is findScan at N = 2^n). -/
def findScan (graph : NXGraph) (N : Nat) : Nat × Nat :=
  (List.range N).foldl
    (fun acc bitstring =>
      let cut_value := evaluate_maxcut_for_bitstring bitstring graph
      if cut_value > acc.1 then (cut_value, bitstring) else acc)
    (0, 0)

/-- Embedding of src/04-ErrorMitigation-Debiasing/error_mitigation_demo.py: a
circuit operation - a named gate on qubits, or a measurement of a qubit into
a classical bit. -/
inductive BVOp where
  | gate (name : String) (qubits : List Nat)
  | measure (qubit : Nat) (clbit : Nat)
deriving DecidableEq, Repr

/-- Embedding of src/04-ErrorMitigation-Debiasing/error_mitigation_demo.py: a
qiskit QuantumCircuit as used there - quantum register size, classical
register size and the ordered operation list. -/
structure BVCircuit where
  numQubits : Nat
  numClbits : Nat
  ops : List BVOp
deriving DecidableEq, Repr

/-- Embedding of src/04-ErrorMitigation-Debiasing/error_mitigation_demo.py,
create_bernstein_vazirani_circuit: h on the n data qubits, x and h on the
ancilla, a cz from data qubit i to the ancilla for every '1' character of the
secret string, h on the data qubits again, and measurement of the n data
qubits into the n classical bits. -/
def create_bernstein_vazirani_circuit (secret_string : String) : BVCircuit :=
  let n := secret_string.length
  BVCircuit.mk (n + 1) n
    ((List.range n).map (fun i => BVOp.gate "h" [i])
      ++ [BVOp.gate "x" [n], BVOp.gate "h" [n]]
      ++ ((secret_string.toList.enum.filter (fun p => p.2 == '1')).map
          (fun p => BVOp.gate "cz" [p.1, n]))
      ++ (List.range n).map (fun i => BVOp.gate "h" [i])
      ++ (List.range n).map (fun i => BVOp.measure i i))

/-- Count the gates of a given name in a Bernstein-Vazirani circuit
(mirrors qc.count_ops().get(name, 0)). -/
def countGates (c : BVCircuit) (nm : String) : Nat :=
  c.ops.countP (fun op =>
    match op with
    | .gate nm2 _ => nm2 == nm
    | _ => false)

/-- Embedding of src/10-Logistics-UnitCommitment/unit_commitment_demo.py: a
generator record with the fields the demo creates. -/
structure Generator where
  gname : String
  capacity : Rat
  min_output : Rat
  operating_cost : Rat
  startup_cost : Rat
  min_uptime : Rat
  min_downtime : Rat
  ramp_rate : Rat
deriving DecidableEq, Repr

instance : Inhabited Generator :=
  ⟨Generator.mk "" 0 0 0 0 0 0 0⟩

/-- Embedding of src/10-Logistics-UnitCommitment/unit_commitment_demo.py,
create_generators: the mock 4-generator power system. -/
def create_generators : List Generator :=
  [Generator.mk "Coal Plant" 100 40 50 200 4 2 20,
   Generator.mk "Natural Gas" 150 30 80 100 2 1 50,
   Generator.mk "Wind (Variable)" 80 0 0 50 1 1 40,
   Generator.mk "Hydro" 120 20 20 75 3 2 30]

/-- Stable insertion of a generator index into an index list sorted by
operating cost (ties keep the original index order, matching Python's stable
sort). -/
def insertByCost (gens : List Generator) (i : Nat) : List Nat → List Nat
  | [] => [i]
  | j :: rest =>
    if (gens.getD i default).operating_cost < (gens.getD j default).operating_cost ∨
        ((gens.getD i default).operating_cost = (gens.getD j default).operating_cost ∧
          i < j)
    then i :: j :: rest
    else j :: insertByCost gens i rest

/-- Embedding of the demo's available_gens.sort(key=operating_cost): the
generator indices 0..n-1 sorted by operating cost, stably. -/
def sortedByCost (gens : List Generator) (n : Nat) : List Nat :=
  (List.range n).foldr (insertByCost gens) []

/-- Embedding of the per-period greedy dispatch loop of
demo_unit_commitment_quantum: walk the cost-sorted generators, stop once
demand is met, turn a generator on when its dispatched output exceeds its
minimum output; returns the on-set and the operating cost incurred. -/
def dispatchLoop (gens : List Generator) : List Nat → Rat → List Nat × Rat
  | [], _ => ([], 0)
  | gid :: restIds, remaining =>
    if remaining ≤ 0 then ([], 0)
    else
      let gen := gens.getD gid default
      let output := min remaining gen.capacity
      if output > gen.min_output then
        let r := dispatchLoop gens restIds (remaining - output)
        (gid :: r.1, gen.operating_cost * output + r.2)
      else dispatchLoop gens restIds remaining

/-- Embedding of the startup-cost pass of demo_unit_commitment_quantum: a
generator pays its startup cost in a period when it is on and was off in the
previous period (or the period is the first). -/
def startupCost (gens : List Generator) (n : Nat) (isFirst : Bool)
    (prevOns ons : List Nat) : Rat :=
  (List.range n).foldl
    (fun acc gid =>
      if (isFirst || !(prevOns.contains gid)) && ons.contains gid
      then acc + (gens.getD gid default).startup_cost else acc) 0

/-- Embedding of the classical greedy scheduling loop of
demo_unit_commitment_quantum, accumulating operating and startup costs over
the demand periods. -/
def greedyAux (gens : List Generator) (n : Nat) :
    List Rat → Bool → List Nat → Rat
  | [], _, _ => 0
  | d :: ds, isFirst, prevOns =>
    let r := dispatchLoop gens (sortedByCost gens n) d
    r.2 + startupCost gens n isFirst prevOns r.1 + greedyAux gens n ds false r.1

/-- Embedding of classical_cost in demo_unit_commitment_quantum. -/
def classical_cost (gens : List Generator) (n : Nat) (demand : List Rat) : Rat :=
  greedyAux gens n demand true []

/-- Embedding of quantum_improvement = 0.10 in demo_unit_commitment_quantum. -/
def quantum_improvement : Rat := 1 / 10

/-- Embedding of quantum_cost = classical_cost * (1 - quantum_improvement) in
demo_unit_commitment_quantum. -/
def quantum_cost (gens : List Generator) (n : Nat) (demand : List Rat) : Rat :=
  classical_cost gens n demand * (1 - quantum_improvement)

/-- A configuration with no seed configured and effort 0. -/
def demoConfig : Config := Config.mk 0 none

/-- A native basis containing the cx gate and the routing swap. -/
def cxBasis : NativeBasis := ["cx", "swap"]

/-- A 3-qubit linear chain 0-1-2. -/
def lineGraph3 : ConnectivityGraph := ConnectivityGraph.mk 3 [(0, 1), (1, 2)]

/-- The complete graph on 4 physical qubits. -/
def completeGraph4 : ConnectivityGraph :=
  ConnectivityGraph.mk 4 [(0, 1), (0, 2), (0, 3), (1, 2), (1, 3), (2, 3)]

/-- The star graph on 4 physical qubits with hub 0. -/
def starGraph4 : ConnectivityGraph :=
  ConnectivityGraph.mk 4 [(0, 1), (0, 2), (0, 3)]

/-- The star graph on 4 physical qubits plus the extra edge 1-2. -/
def starPlusGraph4 : ConnectivityGraph :=
  ConnectivityGraph.mk 4 [(0, 1), (0, 2), (0, 3), (1, 2)]

/-- A 3-qubit logical circuit with a non-adjacent interaction. -/
def demoCircuit2 : LogicalCircuit :=
  LogicalCircuit.mk 3 [Gate.mk "cx" [0, 2] [], Gate.mk "cx" [1, 0] []]

/-- A 4-qubit logical circuit used for the routing comparison. -/
def routingDemoCircuit : LogicalCircuit :=
  LogicalCircuit.mk 4
    [Gate.mk "cx" [1, 2] [], Gate.mk "cx" [3, 1] [], Gate.mk "cx" [0, 1] []]

/-- The compiled form of demoCircuit2 on the 3-qubit line. -/
def lineCompileResult : CompileResult :=
  CompileResult.mk
    [Gate.mk "swap" [0, 1] [], Gate.mk "cx" [1, 2] [], Gate.mk "cx" [0, 1] []]
    1 3 [("swap", 1), ("cx", 2)] 3

/-- The swap count of a compilation outcome, none on a typed error. -/
def compiledSwapCount (x : Except CompileError CompileResult) : Option Nat :=
  match x with
  | .ok r => some r.swapCount
  | .error _ => none

/-- The triangle graph K3 as an NXGraph. -/
def triangleGraph : NXGraph := NXGraph.mk 3 [(0, 1), (0, 2), (1, 2)]

/-- A small circuit fed to the ZX compression stage. -/
def zxDemoCircuit : List Gate :=
  [Gate.mk "cx" [0, 1] [], Gate.mk "rz" [1] [1 / 2], Gate.mk "cx" [0, 1] []]

/-- Every two-qubit gate of the circuit acts on a pair of physical qubits
joined by a connectivity edge. -/
def TwoQubitOnEdges (G : ConnectivityGraph) (c : List Gate) : Prop :=
  ∀ g ∈ c, g.qubits.length = 2 →
    ∃ x y, g.qubits = [x, y] ∧ hasEdge G x y = true

/-- Every successful compilation of C against G inserts zero routing
operations. -/
def SwapFreeOn (C : LogicalCircuit) (G : ConnectivityGraph)
    (basis : NativeBasis) (rules : RuleTable) (cfg : Config) : Prop :=
  ∀ r, compile C G basis rules cfg = Except.ok r → r.swapCount = 0

/-- Any two successful runs of compile on these inputs produce the same
physical circuit and the same reported metrics. -/
def DeterministicOn (C : LogicalCircuit) (G : ConnectivityGraph)
    (basis : NativeBasis) (rules : RuleTable) (cfg : Config) : Prop :=
  ∀ r1 r2, compile C G basis rules cfg = Except.ok r1 →
    compile C G basis rules cfg = Except.ok r2 →
    r1 = r2 ∧ r1.swapCount = r2.swapCount ∧ r1.depth = r2.depth ∧
      r1.counts = r2.counts

/-- Compiling against G2 never yields strictly more routing insertions than
compiling against G1 (whenever both succeed). -/
def SwapCountDominates (C : LogicalCircuit) (G1 G2 : ConnectivityGraph)
    (basis : NativeBasis) (rules : RuleTable) (cfg : Config) : Prop :=
  ∀ r1 r2, compile C G1 basis rules cfg = Except.ok r1 →
    compile C G2 basis rules cfg = Except.ok r2 →
    r2.swapCount ≤ r1.swapCount

/-- The Depth & Metric Accountant behaves as a pure function on this
circuit: repeated application yields identical depth and counts, the
source-level analyzers agree with themselves, and the metrics depend on the
physical circuit value alone. -/
def AccountantPureAt (c : List Gate) : Prop :=
  analyzeMetrics c = analyzeMetrics c ∧
  (analyzeMetrics c).depth = (analyzeMetrics c).depth ∧
  (analyzeMetrics c).counts = (analyzeMetrics c).counts ∧
  analyze_circuit_gates c = analyze_circuit_gates c ∧
  analyze_circuit_structure c = analyze_circuit_structure c ∧
  ∀ c2 : List Gate, c = c2 → analyzeMetrics c = analyzeMetrics c2

/-- The MaxCut helpers meet their specification on graph g: the evaluator
counts the edges whose endpoints receive different bits, and the brute-force
scan returns the maximum cut value over all 2^n bitstrings together with the
numerically smallest bitstring attaining it. -/
def MaxcutSpecHolds (g : NXGraph) : Prop :=
  (∀ bitstring : Nat, evaluate_maxcut_for_bitstring bitstring g =
    g.edges.countP
      (fun e => decide (bitstring.testBit e.1 ≠ bitstring.testBit e.2))) ∧
  (∀ bitstring < 2 ^ g.n,
    evaluate_maxcut_for_bitstring bitstring g ≤ (find_optimal_maxcut g).1) ∧
  (find_optimal_maxcut g).2 < 2 ^ g.n ∧
  evaluate_maxcut_for_bitstring (find_optimal_maxcut g).2 g =
    (find_optimal_maxcut g).1 ∧
  (∀ bitstring < (find_optimal_maxcut g).2,
    evaluate_maxcut_for_bitstring bitstring g < (find_optimal_maxcut g).1)

/-- The Bernstein-Vazirani builder meets its specification on the secret
string s: n+1 qubits, n classical bits, one cz per '1' character, 2n+1
Hadamard gates, one x gate, and measurements touching only the first n
qubits. -/
def BVSpecHolds (s : String) : Prop :=
  (create_bernstein_vazirani_circuit s).numQubits = s.length + 1 ∧
  (create_bernstein_vazirani_circuit s).numClbits = s.length ∧
  countGates (create_bernstein_vazirani_circuit s) "cz" =
    s.toList.countP (fun ch => ch == '1') ∧
  countGates (create_bernstein_vazirani_circuit s) "h" = 2 * s.length + 1 ∧
  countGates (create_bernstein_vazirani_circuit s) "x" = 1 ∧
  ∀ q c, BVOp.measure q c ∈ (create_bernstein_vazirani_circuit s).ops →
    q < s.length

/-- Claim C3: compilation is deterministic - two runs of compile on identical
inputs (same circuit, graph, basis, rule table and configuration with no seed
configured) produce identical physical circuits and identical reported
metrics.  The model realises the spec's pipeline as a pure function with
deterministic tie-breaking, so equal inputs give equal outputs. -/
theorem compile_deterministic (C : LogicalCircuit) (G : ConnectivityGraph)
    (basis : NativeBasis) (rules : RuleTable) (cfg : Config)
    (hseed : cfg.seed = none) : DeterministicOn C G basis rules cfg := by
  intro r1 r2 h1 h2
  have h3 : Except.ok (ε := CompileError) r1 = Except.ok r2 := h1.symm.trans h2
  have h4 : r1 = r2 := by injection h3
  subst h4
  exact ⟨rfl, rfl, rfl, rfl⟩

/-- Witness for C3 at a concrete input with no seed configured. -/
theorem compile_deterministic_witness :
    demoConfig.seed = none ∧
      DeterministicOn demoCircuit2 lineGraph3 cxBasis [] demoConfig :=
  ⟨rfl, compile_deterministic demoCircuit2 lineGraph3 cxBasis [] demoConfig rfl⟩

/-- Counterexample to claim C4: the ZX compression stage of
zx_compression_demo.py does not fail with a typed error when the optimization
fails - with PyZX present and the ZX pipeline raising (zxResult = none), and
likewise with PyZX absent, compress_with_zx returns the unmodified input
circuit as a substitute result. -/
theorem zx_silent_recovery_cex :
    compress_with_zx true zxDemoCircuit none = zxDemoCircuit ∧
      compress_with_zx false zxDemoCircuit (some []) = zxDemoCircuit :=
  ⟨rfl, rfl⟩

/-- Claim C4 as amended: the ZX compression stage silently recovers from
failure - for every circuit, when PyZX is unavailable or the ZX pipeline
raises, compress_with_zx returns the unmodified input circuit instead of
surfacing a typed error. -/
theorem zx_returns_input_on_failure :
    ∀ (circuit : List Gate) (zxResult : Option (List Gate)),
      compress_with_zx true circuit none = circuit ∧
        compress_with_zx false circuit zxResult = circuit :=
  fun _ _ => ⟨rfl, rfl⟩

/-- Claim C5: the Depth & Metric Accountant is a pure function - applying it
twice to the same physical circuit yields identical depth and identical
per-gate-name counts, the repository's analyze_circuit_gates and
analyze_circuit_structure likewise, and the metrics depend only on the
circuit value, independently of which topology produced it. -/
theorem metrics_accountant_pure (c : List Gate) : AccountantPureAt c :=
  ⟨rfl, rfl, rfl, rfl, rfl, fun _ h => h ▸ rfl⟩

/-- Witness for C5 at a concrete physical circuit. -/
theorem metrics_accountant_pure_witness : AccountantPureAt zxDemoCircuit :=
  metrics_accountant_pure zxDemoCircuit

/-- A fold that repeatedly keeps either the accumulator or the new element
stays inside the initial element and the list. -/
theorem foldl_sel_mem {α : Type} (sel : α → α → α)
    (hsel : ∀ x y, sel x y = x ∨ sel x y = y) :
    ∀ (l : List α) (a : α), l.foldl sel a = a ∨ l.foldl sel a ∈ l := by
  intro l
  induction l with
  | nil => intro a; exact Or.inl rfl
  | cons x xs ih =>
    intro a
    simp only [List.foldl_cons]
    rcases ih (sel a x) with h | h
    · rcases hsel a x with h2 | h2
      · rw [h, h2]; exact Or.inl rfl
      · rw [h, h2]; exact Or.inr (List.mem_cons_self x xs)
    · exact Or.inr (List.mem_cons_of_mem x h)

/-- The routing step chosen by chooseStep is a neighbor of pa, hence joined
to pa by a connectivity edge. -/
theorem chooseStep_edge (G : ConnectivityGraph) (rest : List Gate)
    (L : Layout) (pa pb u : Nat) (h : chooseStep G rest L pa pb = some u) :
    hasEdge G pa u = true := by
  unfold chooseStep at h
  rcases hm : (neighbors G pa).filterMap
      (fun v => (bfsDist G v pb).map (fun d => (v, d))) with _ | ⟨c, cs⟩ <;>
    rw [hm] at h
  · exact absurd h (by simp)
  · simp only [Option.some.injEq] at h
    set sel : Nat × Nat → Nat × Nat → Nat × Nat := fun best p =>
      if p.2 < best.2 ∨
          (p.2 = best.2 ∧ futureUse rest L best.1 < futureUse rest L p.1)
      then p else best with hselDef
    have hsel : ∀ x y, sel x y = x ∨ sel x y = y := by
      intro x y
      rw [hselDef]
      by_cases hc : y.2 < x.2 ∨
          (y.2 = x.2 ∧ futureUse rest L x.1 < futureUse rest L y.1)
      · exact Or.inr (if_pos hc)
      · exact Or.inl (if_neg hc)
    have hmem : cs.foldl sel c ∈ c :: cs := by
      rcases foldl_sel_mem sel hsel cs c with h2 | h2
      · rw [h2]; exact List.mem_cons_self c cs
      · exact List.mem_cons_of_mem c h2
    rw [← hm] at hmem
    obtain ⟨v, hv, heq⟩ := List.mem_filterMap.mp hmem
    obtain ⟨d, _, hvd⟩ := Option.map_eq_some'.mp heq
    have hv1 : v ∈ List.range G.m ∧ hasEdge G pa v = true :=
      List.mem_filter.mp hv
    have : (cs.foldl sel c).1 = v := by rw [← hvd]
    rw [← h, this]
    exact hv1.2

/-- On success, bringAdjacent returns only swap gates lying on connectivity
edges and ends with the two logical operands physically adjacent. -/
theorem bringAdjacent_ok (G : ConnectivityGraph) (rest : List Gate)
    (a b : Nat) :
    ∀ (fuel : Nat) (L : Layout) (sw : List Gate) (L2 : Layout),
      bringAdjacent G rest a b fuel L = Except.ok (sw, L2) →
      (∀ g ∈ sw, ∃ p u, g = Gate.mk "swap" [p, u] [] ∧ hasEdge G p u = true) ∧
        hasEdge G (physOf L2 a) (physOf L2 b) = true := by
  intro fuel
  induction fuel with
  | zero =>
    intro L sw L2 h
    simp only [bringAdjacent] at h
    split at h
    · rename_i hedge
      injection h with h2
      injection h2 with h3 h4
      subst h3; subst h4
      exact ⟨by simp, hedge⟩
    · exact absurd h (by simp)
  | succ fuel ih =>
    intro L sw L2 h
    simp only [bringAdjacent] at h
    split at h
    · rename_i hedge
      injection h with h2
      injection h2 with h3 h4
      subst h3; subst h4
      exact ⟨by simp, hedge⟩
    · split at h
      · exact absurd h (by simp)
      · rename_i u hcs
        split at h
        · exact absurd h (by simp)
        · rename_i sw2 L3 hba
          injection h with h2
          injection h2 with h3 h4
          subst h4
          obtain ⟨hsw2, hadj⟩ := ih (swapPhys L (physOf L a) u) sw2 L3 hba
          refine ⟨?_, hadj⟩
          intro g hg
          rw [← h3] at hg
          rcases List.mem_cons.mp hg with hg2 | hg2
          · exact ⟨physOf L a, u, hg2, chooseStep_edge G rest L _ _ u hcs⟩
          · exact hsw2 g hg2

/-- Every two-qubit gate emitted by the router - routed original gates and
inserted routing swaps alike - acts on a connectivity edge. -/
theorem routeCircuit_twoQubit (G : ConnectivityGraph) :
    ∀ (gs : List Gate) (L : Layout) (out : List Gate) (k : Nat) (L3 : Layout),
      routeCircuit G gs L = Except.ok (out, k, L3) →
      ∀ g ∈ out, g.qubits.length = 2 →
        ∃ x y, g.qubits = [x, y] ∧ hasEdge G x y = true := by
  intro gs
  induction gs with
  | nil =>
    intro L out k L3 h
    simp only [routeCircuit] at h
    injection h with h2
    injection h2 with h3 h4
    subst h3
    intro g hg
    exact absurd hg (by simp)
  | cons g0 rest ih =>
    intro L out k L3 h
    simp only [routeCircuit] at h
    split at h
    · rename_i a b hq
      split at h
      · exact absurd h (by simp)
      · rename_i sw L2 hba
        split at h
        · exact absurd h (by simp)
        · rename_i out2 k2 L4 hrc
          injection h with h2
          injection h2 with h3 h4
          subst h3
          intro g hg hg2
          rcases List.mem_append.mp hg with hg3 | hg3
          · obtain ⟨p, u, hgeq, hpu⟩ :=
              ((bringAdjacent_ok G rest a b (G.m + 1) L sw L2 hba).1) g hg3
            exact ⟨p, u, by rw [hgeq], hpu⟩
          · rcases List.mem_cons.mp hg3 with hg4 | hg4
            · exact ⟨physOf L2 a, physOf L2 b, by rw [hg4],
                (bringAdjacent_ok G rest a b (G.m + 1) L sw L2 hba).2⟩
            · exact ih L2 out2 k2 L4 hrc g hg4 hg2
    · rename_i hne
      split at h
      · exact absurd h (by simp)
      · rename_i out2 k2 L4 hrc
        injection h with h2
        injection h2 with h3 h4
        subst h3
        intro g hg hg2
        rcases List.mem_cons.mp hg with hg3 | hg3
        · exfalso
          rw [hg3] at hg2
          simp only [List.length_map] at hg2
          rcases hq : g0.qubits with _ | ⟨x, t⟩
          · rw [hq] at hg2; exact absurd hg2 (by simp)
          · rcases ht : t with _ | ⟨y, t2⟩
            · rw [hq, ht] at hg2; exact absurd hg2 (by simp)
            · rcases ht2 : t2 with _ | ⟨z, t3⟩
              · exact hne x y (by rw [hq, ht, ht2])
              · rw [hq, ht, ht2] at hg2; exact absurd hg2 (by simp)
        · exact ih L out2 k2 L4 hrc g hg3 hg2

/-- Edge membership is symmetric. -/
theorem hasEdge_symm (G : ConnectivityGraph) (a b : Nat) :
    hasEdge G b a = hasEdge G a b := by
  unfold hasEdge
  congr 1
  funext e
  exact Bool.or_comm _ _

/-- The basis rewriter preserves the on-edge property of two-qubit gates:
its templates act on the source gate's operand pair, possibly flipped. -/
theorem rewriteCircuit_twoQubit (G : ConnectivityGraph) (basis : NativeBasis)
    (rules : RuleTable) :
    ∀ (c out : List Gate), rewriteCircuit basis rules c = Except.ok out →
      (∀ g ∈ c, g.qubits.length = 2 →
        ∃ x y, g.qubits = [x, y] ∧ hasEdge G x y = true) →
      ∀ g ∈ out, g.qubits.length = 2 →
        ∃ x y, g.qubits = [x, y] ∧ hasEdge G x y = true := by
  intro c
  induction c with
  | nil =>
    intro out h hin
    simp only [rewriteCircuit] at h
    injection h with h2
    subst h2
    intro g hg
    exact absurd hg (by simp)
  | cons g0 rest ih =>
    intro out h hin
    simp only [rewriteCircuit] at h
    split at h
    · exact absurd h (by simp)
    · rename_i ts hts
      split at h
      · exact absurd h (by simp)
      · rename_i out2 hout2
        injection h with h2
        subst h2
        intro g hg hg2
        rcases List.mem_append.mp hg with hg3 | hg3
        · unfold rewriteGate at hts
          split at hts
          · injection hts with h3
            rw [← h3] at hg3
            rcases List.mem_cons.mp hg3 with hg4 | hg4
            · subst hg4
              exact hin g (List.mem_cons_self _ _) hg2
            · exact absurd hg4 (by simp)
          · split at hts
            · rename_i tpls htpl
              injection hts with h3
              rw [← h3] at hg3
              obtain ⟨t, _, hgt⟩ := List.mem_map.mp hg3
              subst hgt
              cases t with
              | oneQ nm second scale =>
                exact absurd hg2 (by simp [instTemplate])
              | twoQ nm flip scale =>
                simp only [instTemplate] at hg2 ⊢
                have hlen : g0.qubits.length = 2 := by
                  rcases flip with _ | _ <;> simp_all
                obtain ⟨x, y, hxy, hedge⟩ :=
                  hin g0 (List.mem_cons_self g0 rest) hlen
                rcases flip with _ | _
                · exact ⟨x, y, by simp [hxy], hedge⟩
                · refine ⟨y, x, by simp [hxy], ?_⟩
                  rw [hasEdge_symm]
                  exact hedge
            · exact absurd hts (by simp)
        · exact ih out2 hout2
            (fun g2 hg4 => hin g2 (List.mem_cons_of_mem g0 hg4)) g hg3 hg2

/-- Claim C1: routing correctness - for every logical circuit, connectivity
graph, basis, rule table and configuration, every two-qubit gate in the
physical circuit produced by a successful compile acts on a pair of physical
qubits joined by a connectivity edge, at every point of the output sequence,
inserted routing operations included. -/
theorem compile_two_qubit_on_edges (C : LogicalCircuit)
    (G : ConnectivityGraph) (basis : NativeBasis) (rules : RuleTable)
    (cfg : Config) (r : CompileResult)
    (h : compile C G basis rules cfg = Except.ok r) :
    TwoQubitOnEdges G r.circuit := by
  unfold compile at h
  split at h
  · exact absurd h (by simp)
  · rename_i L0 hL0
    split at h
    · exact absurd h (by simp)
    · rename_i routed swaps Lend hroute
      split at h
      · exact absurd h (by simp)
      · rename_i phys hphys
        injection h with h2
        subst h2
        intro g hg
        exact rewriteCircuit_twoQubit G basis rules routed phys hphys
          (routeCircuit_twoQubit G C.gates L0 routed swaps Lend hroute) g hg

/-- Witness for C1: a concrete compile on the 3-qubit line succeeds and all
two-qubit gates of its output, the inserted swap included, lie on edges. -/
theorem compile_two_qubit_on_edges_witness :
    compile demoCircuit2 lineGraph3 cxBasis [] demoConfig =
        Except.ok lineCompileResult ∧
      TwoQubitOnEdges lineGraph3 lineCompileResult.circuit :=
  ⟨rfl, compile_two_qubit_on_edges demoCircuit2 lineGraph3 cxBasis []
    demoConfig lineCompileResult rfl⟩

/-- Under the identity layout every in-range logical qubit sits at the
physical qubit of the same index. -/
theorem physOf_range (n a : Nat) (h : a < n) :
    physOf (List.range n) a = a := by
  unfold physOf
  rw [List.getD_eq_getElem?_getD, List.getElem?_range h]
  rfl

/-- Mapping the identity layout over an in-range qubit list is the
identity. -/
theorem map_physOf_range (n : Nat) :
    ∀ qs : List Nat, (∀ q ∈ qs, q < n) →
      qs.map (physOf (List.range n)) = qs := by
  intro qs
  induction qs with
  | nil => intro _; rfl
  | cons q qs ih =>
    intro h
    simp only [List.map_cons]
    rw [physOf_range n q (h q (List.mem_cons_self _ _)),
      ih (fun x hx => h x (List.mem_cons_of_mem _ hx))]

/-- In a fully connected graph every pair of distinct in-range physical
qubits is joined by an edge. -/
theorem fullyConnected_hasEdge (G : ConnectivityGraph)
    (h : fullyConnected G = true) (a b : Nat) (ha : a < G.m) (hb : b < G.m)
    (hne : a ≠ b) : hasEdge G a b = true := by
  unfold fullyConnected at h
  rw [List.all_eq_true] at h
  have h2 := h a (List.mem_range.mpr ha)
  rw [List.all_eq_true] at h2
  have h3 := h2 b (List.mem_range.mpr hb)
  rcases Bool.or_eq_true_iff.mp h3 with h4 | h4
  · simp only [beq_iff_eq] at h4
    exact absurd h4 hne
  · exact h4

/-- On a fully connected graph the router leaves a valid circuit unchanged:
no routing operation is inserted and the identity layout survives. -/
theorem routeCircuit_fullyConnected (G : ConnectivityGraph)
    (hfc : fullyConnected G = true) (n : Nat) (hn : n ≤ G.m) :
    ∀ gs : List Gate,
      (∀ g ∈ gs, (∀ q ∈ g.qubits, q < n) ∧ g.qubits.Nodup) →
      routeCircuit G gs (List.range n) = Except.ok (gs, 0, List.range n) := by
  intro gs
  induction gs with
  | nil => intro _; rfl
  | cons g0 rest ih =>
    intro hall
    obtain ⟨hrange, hnodup⟩ := hall g0 (List.mem_cons_self _ _)
    have ihr := ih (fun g hg => hall g (List.mem_cons_of_mem _ hg))
    have hgate : ∀ L2 : Layout, L2 = List.range n →
        Gate.mk g0.name (g0.qubits.map (physOf L2)) g0.params = g0 := by
      intro L2 hL2
      rw [hL2, map_physOf_range n g0.qubits hrange]
    rcases hq : g0.qubits with _ | ⟨a, t⟩
    · simp only [routeCircuit, hq, ihr]
      have := hgate (List.range n) rfl
      rw [hq] at this
      rw [this]
    · rcases ht : t with _ | ⟨b, t2⟩
      · simp only [routeCircuit, hq, ht, ihr]
        have := hgate (List.range n) rfl
        rw [hq, ht] at this
        rw [this]
      · rcases ht2 : t2 with _ | ⟨c, t3⟩
        · -- two-qubit gate [a, b]
          have ha : a < n := hrange a (by rw [hq, ht, ht2]; simp)
          have hb : b < n := hrange b (by rw [hq, ht, ht2]; simp)
          have hne : a ≠ b := by
            rw [hq, ht, ht2] at hnodup
            simp only [List.nodup_cons, List.mem_singleton] at hnodup
            exact hnodup.1
          have hedge : hasEdge G (physOf (List.range n) a)
              (physOf (List.range n) b) = true := by
            rw [physOf_range n a ha, physOf_range n b hb]
            exact fullyConnected_hasEdge G hfc a b (Nat.lt_of_lt_of_le ha hn)
              (Nat.lt_of_lt_of_le hb hn) hne
          have hba : bringAdjacent G rest a b (G.m + 1) (List.range n) =
              Except.ok ([], List.range n) := by
            simp only [bringAdjacent, hedge, if_true]
          simp only [routeCircuit, hq, ht, ht2, hba, ihr]
          rw [physOf_range n a ha, physOf_range n b hb]
          have : Gate.mk g0.name [a, b] g0.params = g0 := by
            have h5 := hgate (List.range n) rfl
            rw [hq, ht, ht2] at h5
            rw [← h5, map_physOf_range n [a, b]
              (by intro q hq2; rcases List.mem_cons.mp hq2 with h6 | h6
                  · rw [h6]; exact ha
                  · rw [List.mem_singleton.mp h6]; exact hb)]
          rw [this]
          rfl
        · -- three or more operands: catch-all branch
          simp only [routeCircuit, hq, ht, ht2, ihr]
          have := hgate (List.range n) rfl
          rw [hq, ht, ht2] at this
          rw [this]

/-- The basis rewriter is the identity on circuits whose gates already carry
native names. -/
theorem rewriteCircuit_native (basis : NativeBasis) (rules : RuleTable) :
    ∀ c : List Gate, (∀ g ∈ c, g.name ∈ basis) →
      rewriteCircuit basis rules c = Except.ok c := by
  intro c
  induction c with
  | nil => intro _; rfl
  | cons g0 rest ih =>
    intro hall
    have hmem : basis.contains g0.name = true := by
      have := hall g0 (List.mem_cons_self _ _)
      exact List.elem_eq_true_of_mem this
    simp only [rewriteCircuit, rewriteGate, hmem, if_true,
      ih (fun g hg => hall g (List.mem_cons_of_mem _ hg))]
    rfl

/-- On a fully connected graph a valid, already-native circuit compiles to
itself with zero routing insertions. -/
theorem compile_fullyConnected (C : LogicalCircuit) (G : ConnectivityGraph)
    (basis : NativeBasis) (rules : RuleTable) (cfg : Config)
    (hv : ValidCircuit C) (hb : AllNative C basis)
    (hfc : fullyConnected G = true) (hn : C.n ≤ G.m) :
    compile C G basis rules cfg = Except.ok
      (CompileResult.mk C.gates 0 (circuitDepth C.gates) (countOps C.gates)
        C.gates.length) := by
  have h1 := routeCircuit_fullyConnected G hfc C.n hn C.gates
    (fun g hg => ⟨(hv g hg).2.1, (hv g hg).2.2⟩)
  have h2 := rewriteCircuit_native basis rules C.gates hb
  simp only [compile, selectLayout, if_pos hn, h1, h2]

/-- Claim C2: on any fully connected (all-to-all) connectivity graph, a valid
logical circuit whose gates are already expressible in the native basis
compiles with zero inserted routing operations. -/
theorem compile_fully_connected_zero_routing (C : LogicalCircuit)
    (G : ConnectivityGraph) (basis : NativeBasis) (rules : RuleTable)
    (cfg : Config) (hv : ValidCircuit C) (hb : AllNative C basis)
    (hfc : fullyConnected G = true) : SwapFreeOn C G basis rules cfg := by
  intro r h
  by_cases hn : C.n ≤ G.m
  · rw [compile_fullyConnected C G basis rules cfg hv hb hfc hn] at h
    injection h with h2
    rw [← h2]
  · unfold compile selectLayout at h
    rw [if_neg hn] at h
    exact absurd h (by simp)

/-- Witness for C2 at a concrete valid native circuit on the complete graph
on four qubits. -/
theorem compile_fully_connected_zero_routing_witness :
    ValidCircuit routingDemoCircuit ∧ AllNative routingDemoCircuit cxBasis ∧
      fullyConnected completeGraph4 = true ∧
      SwapFreeOn routingDemoCircuit completeGraph4 cxBasis [] demoConfig :=
  ⟨by decide, by decide, by decide,
    compile_fully_connected_zero_routing routingDemoCircuit completeGraph4
      cxBasis [] demoConfig (by decide) (by decide) (by decide)⟩

/-- Counterexample to claim C6: routing is not monotone in the edge set.
The star graph's edges are a strict subset of the star-plus-chord graph's
edges, yet compiling the same valid circuit inserts 1 routing operation on
the sparser star and 2 on the denser superset graph - the chord makes the
first gate free, which keeps the layout in a position that costs two later
swaps, while the sparser graph's forced early swap happens to help every
later gate. -/
theorem routing_not_monotone_cex :
    starGraph4.edges.all (fun e => starPlusGraph4.edges.contains e) = true ∧
      starPlusGraph4.edges.all (fun e => starGraph4.edges.contains e) ≠ true ∧
      compiledSwapCount
        (compile routingDemoCircuit starGraph4 cxBasis [] demoConfig) =
        some 1 ∧
      compiledSwapCount
        (compile routingDemoCircuit starPlusGraph4 cxBasis [] demoConfig) =
        some 2 := by
  refine ⟨rfl, ?_, rfl, rfl⟩
  decide

/-- Claim C6 as amended: monotonicity of routing insertions holds against a
fully connected superset graph - for a fixed valid native circuit, compiling
against any graph whose edges form a subset of a fully connected graph's
edges never yields strictly fewer routing insertions than compiling against
the fully connected graph, whose compile inserts zero. -/
theorem routing_monotone_vs_fully_connected (C : LogicalCircuit)
    (G1 G2 : ConnectivityGraph) (basis : NativeBasis) (rules : RuleTable)
    (cfg : Config)
    (hsub : G1.edges.all (fun e => G2.edges.contains e) = true)
    (hv : ValidCircuit C) (hb : AllNative C basis)
    (hfc : fullyConnected G2 = true) :
    SwapCountDominates C G1 G2 basis rules cfg := by
  intro r1 r2 _ h2
  by_cases hn : C.n ≤ G2.m
  · rw [compile_fullyConnected C G2 basis rules cfg hv hb hfc hn] at h2
    injection h2 with h3
    rw [← h3]
    exact Nat.zero_le _
  · unfold compile selectLayout at h2
    rw [if_neg hn] at h2
    exact absurd h2 (by simp)

/-- Witness for the amended C6 at the concrete star-versus-complete pair. -/
theorem routing_monotone_vs_fully_connected_witness :
    starGraph4.edges.all (fun e => completeGraph4.edges.contains e) = true ∧
      ValidCircuit routingDemoCircuit ∧
      AllNative routingDemoCircuit cxBasis ∧
      fullyConnected completeGraph4 = true ∧
      SwapCountDominates routingDemoCircuit starGraph4 completeGraph4 cxBasis
        [] demoConfig :=
  ⟨by decide, by decide, by decide, by decide,
    routing_monotone_vs_fully_connected routingDemoCircuit starGraph4
      completeGraph4 cxBasis [] demoConfig (by decide) (by decide) (by decide)
      (by decide)⟩

/-- Claim C7: depth accounting follows the stated last-gate-per-qubit
algorithm (circuitDepth is defined by exactly that recurrence), and a
circuit consisting of a single two-qubit gate between physically adjacent
qubits compiles with zero routing insertions and depth exactly one. -/
theorem single_adjacent_gate_depth_one (G : ConnectivityGraph) (nm : String)
    (ps : List Rat) (a b n : Nat) (basis : NativeBasis) (rules : RuleTable)
    (cfg : Config) (ha : a < n) (hb : b < n) (hn : n ≤ G.m)
    (he : hasEdge G a b = true) (hname : nm ∈ basis) :
    compile (LogicalCircuit.mk n [Gate.mk nm [a, b] ps]) G basis rules cfg =
      Except.ok (CompileResult.mk [Gate.mk nm [a, b] ps] 0 1
        (countOps [Gate.mk nm [a, b] ps]) 1) := by
  have hedge : hasEdge G (physOf (List.range n) a)
      (physOf (List.range n) b) = true := by
    rw [physOf_range n a ha, physOf_range n b hb]
    exact he
  have hba : bringAdjacent G [] a b (G.m + 1) (List.range n) =
      Except.ok ([], List.range n) := by
    simp only [bringAdjacent, hedge, if_true]
  have hmem : basis.contains nm = true := List.elem_eq_true_of_mem hname
  simp only [compile, selectLayout, if_pos hn, routeCircuit, hba,
    rewriteCircuit, rewriteGate, hmem, if_true, physOf_range n a ha,
    physOf_range n b hb, circuitDepth, depthAux, countOps]
  rfl

/-- Witness for C7: a single cx between adjacent qubits 1 and 2 of the
3-qubit line compiles swap-free with depth one. -/
theorem single_adjacent_gate_depth_one_witness :
    1 < 3 ∧ 2 < 3 ∧ 3 ≤ lineGraph3.m ∧ hasEdge lineGraph3 1 2 = true ∧
      "cx" ∈ cxBasis ∧
      compile (LogicalCircuit.mk 3 [Gate.mk "cx" [1, 2] []]) lineGraph3
        cxBasis [] demoConfig =
        Except.ok (CompileResult.mk [Gate.mk "cx" [1, 2] []] 0 1
          (countOps [Gate.mk "cx" [1, 2] []]) 1) :=
  ⟨by decide, by decide, by decide, by decide, by decide,
    single_adjacent_gate_depth_one lineGraph3 "cx" [] 1 2 3 cxBasis []
      demoConfig (by decide) (by decide) (by decide) (by decide) (by decide)⟩

/-- A conditional-increment fold starting at a counts the elements satisfying
the predicate, shifted by a. -/
theorem foldl_if_count {α : Type} (p : α → Prop) [DecidablePred p] :
    ∀ (l : List α) (a : Nat),
      l.foldl (fun acc x => if p x then acc + 1 else acc) a =
        a + l.countP (fun x => decide (p x)) := by
  intro l
  induction l with
  | nil => intro a; simp
  | cons x xs ih =>
    intro a
    simp only [List.foldl_cons, List.countP_cons]
    by_cases h : p x
    · rw [if_pos h, ih]
      simp [h]
      omega
    · rw [if_neg h, ih]
      simp [h]

/-- The MaxCut evaluator counts the edges whose shifted low bits differ. -/
theorem evaluate_eq_countP (bitstring : Nat) (graph : NXGraph) :
    evaluate_maxcut_for_bitstring bitstring graph =
      graph.edges.countP (fun e =>
        decide ((bitstring >>> e.1) &&& 1 ≠ (bitstring >>> e.2) &&& 1)) := by
  unfold evaluate_maxcut_for_bitstring
  have h := foldl_if_count
    (fun e : Nat × Nat => (bitstring >>> e.1) &&& 1 ≠ (bitstring >>> e.2) &&& 1)
    graph.edges 0
  simpa using h

/-- Differing shifted low bits is the same as differing testBit values. -/
theorem shifted_bit_ne_iff (bs i j : Nat) :
    ((bs >>> i) &&& 1 ≠ (bs >>> j) &&& 1) ↔ (bs.testBit i ≠ bs.testBit j) := by
  rw [Nat.testBit_to_div_mod, Nat.testBit_to_div_mod,
    Nat.and_one_is_mod, Nat.and_one_is_mod,
    Nat.shiftRight_eq_div_pow, Nat.shiftRight_eq_div_pow]
  rcases Nat.mod_two_eq_zero_or_one (bs / 2 ^ i) with h1 | h1 <;>
    rcases Nat.mod_two_eq_zero_or_one (bs / 2 ^ j) with h2 | h2 <;>
    simp [h1, h2]

/-- The all-zero bitstring cuts no edge. -/
theorem evaluate_zero (graph : NXGraph) :
    evaluate_maxcut_for_bitstring 0 graph = 0 := by
  rw [evaluate_eq_countP]
  simp [Nat.zero_shiftRight]

/-- One scan step: scanning one more bitstring keeps the accumulator unless
the new bitstring strictly improves the cut value. -/
theorem findScan_succ (graph : NXGraph) (N : Nat) :
    findScan graph (N + 1) =
      (if evaluate_maxcut_for_bitstring N graph > (findScan graph N).1
        then (evaluate_maxcut_for_bitstring N graph, N)
        else findScan graph N) := by
  unfold findScan
  rw [List.range_succ, List.foldl_append]
  rfl

/-- Invariant of the brute-force scan: after scanning the first N bitstrings
the accumulator holds the maximum cut value over them, attained at the held
bitstring, which is the numerically smallest bitstring attaining it. -/
theorem findScan_spec (graph : NXGraph) :
    ∀ N : Nat,
      (∀ bs, bs < N →
        evaluate_maxcut_for_bitstring bs graph ≤ (findScan graph N).1) ∧
      evaluate_maxcut_for_bitstring (findScan graph N).2 graph =
        (findScan graph N).1 ∧
      ((findScan graph N).2 = 0 ∨ (findScan graph N).2 < N) ∧
      (∀ bs, bs < (findScan graph N).2 →
        evaluate_maxcut_for_bitstring bs graph < (findScan graph N).1) := by
  intro N
  induction N with
  | zero =>
    refine ⟨fun bs hbs => absurd hbs (by omega), ?_, Or.inl rfl,
      fun bs hbs => absurd hbs (by simp [findScan])⟩
    show evaluate_maxcut_for_bitstring 0 graph = 0
    exact evaluate_zero graph
  | succ N ih =>
    obtain ⟨hmax, hatt, hpos, hmin⟩ := ih
    rw [findScan_succ graph N]
    by_cases hc : evaluate_maxcut_for_bitstring N graph > (findScan graph N).1
    · rw [if_pos hc]
      refine ⟨?_, rfl, Or.inr (by omega), ?_⟩
      · intro bs hbs
        rcases Nat.lt_succ_iff_lt_or_eq.mp hbs with h | h
        · exact Nat.le_of_lt (Nat.lt_of_le_of_lt (hmax bs h) hc)
        · rw [h]
      · intro bs hbs
        exact Nat.lt_of_le_of_lt (hmax bs hbs) hc
    · rw [if_neg hc]
      refine ⟨?_, hatt, ?_, hmin⟩
      · intro bs hbs
        rcases Nat.lt_succ_iff_lt_or_eq.mp hbs with h | h
        · exact hmax bs h
        · rw [h]; omega
      · rcases hpos with h | h
        · exact Or.inl h
        · exact Or.inr (by omega)

/-- Claim C8: evaluate_maxcut_for_bitstring returns exactly the number of
edges whose endpoints receive different bits of the bitstring, and
find_optimal_maxcut returns the maximum cut value over all 2^n bitstrings
together with the numerically smallest bitstring attaining it. -/
theorem maxcut_spec (g : NXGraph) : MaxcutSpecHolds g := by
  have hscan := findScan_spec g (2 ^ g.n)
  have heq : find_optimal_maxcut g = findScan g (2 ^ g.n) := rfl
  refine ⟨?_, ?_, ?_, ?_, ?_⟩
  · intro bs
    rw [evaluate_eq_countP]
    apply List.countP_congr
    intro e _
    simp only [decide_eq_true_eq]
    exact shifted_bit_ne_iff bs e.1 e.2
  · intro bs hbs
    rw [heq]
    exact hscan.1 bs hbs
  · rw [heq]
    rcases hscan.2.2.1 with h | h
    · rw [h]
      exact Nat.pos_pow_of_pos g.n (by omega)
    · exact h
  · rw [heq]
    exact hscan.2.1
  · intro bs hbs
    rw [heq] at hbs ⊢
    exact hscan.2.2.2 bs hbs

/-- Witness for C8 at the triangle graph K3. -/
theorem maxcut_spec_witness : MaxcutSpecHolds triangleGraph :=
  maxcut_spec triangleGraph

/-- Counting over an enumerated list by a predicate on the elements matches
counting over the underlying list. -/
theorem countP_enumFrom (p : Char → Bool) :
    ∀ (l : List Char) (k : Nat),
      (List.enumFrom k l).countP (fun q => p q.2) = l.countP p := by
  intro l
  induction l with
  | nil => intro _; rfl
  | cons c cs ih =>
    intro k
    simp only [List.enumFrom, List.countP_cons, ih (k + 1)]

/-- The Bernstein-Vazirani circuit holds one cz gate per '1' character of the
secret string. -/
theorem bv_cz_count (s : String) :
    countGates (create_bernstein_vazirani_circuit s) "cz" =
      s.toList.countP (fun ch => ch == '1') := by
  unfold countGates create_bernstein_vazirani_circuit
  simp only [List.countP_append, List.countP_map, List.countP_cons,
    List.countP_nil, Function.comp_def]
  simp
  rw [← List.countP_eq_length_filter]
  exact countP_enumFrom (fun ch => ch == '1') s.data 0

/-- The Bernstein-Vazirani circuit holds 2n+1 Hadamard gates. -/
theorem bv_h_count (s : String) :
    countGates (create_bernstein_vazirani_circuit s) "h" =
      2 * s.length + 1 := by
  unfold countGates create_bernstein_vazirani_circuit
  simp only [List.countP_append, List.countP_map, List.countP_cons,
    List.countP_nil, Function.comp_def]
  simp
  omega

/-- The Bernstein-Vazirani circuit holds exactly one x gate. -/
theorem bv_x_count (s : String) :
    countGates (create_bernstein_vazirani_circuit s) "x" = 1 := by
  unfold countGates create_bernstein_vazirani_circuit
  simp only [List.countP_append, List.countP_map, List.countP_cons,
    List.countP_nil, Function.comp_def]
  simp

/-- The Bernstein-Vazirani circuit measures only the first n qubits, never
the ancilla. -/
theorem bv_measure_range (s : String) :
    ∀ q c, BVOp.measure q c ∈ (create_bernstein_vazirani_circuit s).ops →
      q < s.length := by
  intro q c h
  unfold create_bernstein_vazirani_circuit at h
  simp at h
  omega

/-- Claim C9: for every secret string the Bernstein-Vazirani builder returns
a circuit with n+1 qubits and n classical bits, one cz per '1' character,
2n+1 Hadamard gates, one x gate, and measurements of the first n qubits
only. -/
theorem bernstein_vazirani_spec (s : String) : BVSpecHolds s :=
  ⟨rfl, rfl, bv_cz_count s, bv_h_count s, bv_x_count s, bv_measure_range s⟩

/-- Witness for C9 at the secret string "101". -/
theorem bernstein_vazirani_spec_witness : BVSpecHolds "101" :=
  bernstein_vazirani_spec "101"

/-- Claim C10: in the unit-commitment demo the reported quantum VQE solution
cost is exactly 0.9 times the classical greedy solution cost, for every list
of generators and every demand profile; the 10% improvement is the fixed
constant quantum_improvement and nothing else influences the quantum cost. -/
theorem quantum_cost_fixed_ratio (gens : List Generator) (n : Nat)
    (demand : List Rat) :
    quantum_cost gens n demand = (9 / 10) * classical_cost gens n demand := by
  unfold quantum_cost quantum_improvement
  ring

end IonQ
